import Mathlib

/-!
Shallow embedding of `src/agc/agc.py` (OTU clustering: dereplication +
abundance-sorted greedy clustering), together with theorems checking the
specification's claims against it.

Modelling conventions:
* A Python string is a `List Char`; the line-iterated content of the input
  file is a `List (List Char)` (each element one line as Python's file
  iteration produces it).
* Python floats are modelled by exact rationals `ℚ`.
* A Python runtime exception (here: `ZeroDivisionError` in `get_identity`,
  which propagates out of `abundance_greedy_clustering`) is modelled by
  `Option`: `none` is the raised exception.
* The external pairwise aligner `nw.global_align` is an external collaborator
  and is passed in as a function parameter `align`.
-/

/-- One dereplicated entry as the Python code passes it around:
`[sequence, count]`. -/
abbrev OtuEntry : Type := List Char × Nat

/-- The external global aligner: two sequences in, two aligned strings out. -/
abbrev Aligner : Type := List Char → List Char → List Char × List Char

/-- The ASCII whitespace characters removed by Python's `str.strip()`
(space, tab, newline, carriage return, vertical tab, form feed).
Non-ASCII Unicode whitespace is not modelled. -/
def isPySpace (c : Char) : Bool :=
  c == ' ' || c == '\t' || c == '\n' || c == '\r' ||
    c == Char.ofNat 11 || c == Char.ofNat 12

/-- Python's `line.strip()`: remove leading and trailing whitespace. -/
def pyStrip (l : List Char) : List Char :=
  ((l.dropWhile isPySpace).reverse.dropWhile isPySpace).reverse

/-- Python's `line.startswith(">")`. -/
def startsWithGt : List Char → Bool
  | [] => false
  | c :: _ => c == '>'

/-- Loop body of `read_fasta`: fold over the remaining lines, carrying the
currently accumulating `sequence`; a line starting with the record delimiter
flushes the accumulator through the length filter, any other line is appended
after `strip()`; at end of stream the accumulator is flushed through the same
filter. -/
def readFastaAux (minseqlen : Nat) : List (List Char) → List Char → List (List Char)
  | [], sequence => if minseqlen ≤ sequence.length then [sequence] else []
  | line :: rest, sequence =>
    if startsWithGt line then
      (if minseqlen ≤ sequence.length then [sequence] else []) ++
        readFastaAux minseqlen rest []
    else
      readFastaAux minseqlen rest (sequence ++ pyStrip line)

/-- Embeds `read_fasta` of `src/agc/agc.py`: the list of sequences the
generator yields, given the decompressed file as a list of lines. -/
def read_fasta (lines : List (List Char)) (minseqlen : Nat) : List (List Char) :=
  readFastaAux minseqlen lines []

/-- First-occurrence order of the distinct sequences, as the insertion order
of the keys of `collections.Counter` over the `read_fasta` stream. -/
def dedupKeys (seqs : List (List Char)) : List (List Char) :=
  seqs.foldl (fun acc s => if s ∈ acc then acc else acc ++ [s]) []

/-- `Counter(...).items()` in key-insertion (first-occurrence) order:
each distinct sequence with its number of occurrences. -/
def counterItems (seqs : List (List Char)) : List OtuEntry :=
  (dedupKeys seqs).map (fun s => (s, seqs.count s))

/-- The descending-count ordering used by `Counter.most_common()`
(`sorted(..., key=count, reverse=True)`): `a` may come before `b`
iff `b.2 ≤ a.2`. -/
def countGe (a b : OtuEntry) : Prop := b.2 ≤ a.2

instance : DecidableRel countGe := fun a b => Nat.decLe b.2 a.2

instance : IsTotal OtuEntry countGe := ⟨fun a b => Nat.le_total b.2 a.2⟩

instance : IsTrans OtuEntry countGe := ⟨fun _ _ _ h1 h2 => Nat.le_trans h2 h1⟩

/-- Embeds `dereplication_fulllength` of `src/agc/agc.py`: count exact
occurrences with `Counter`, list them by descending count (`most_common()` is
a stable descending sort, modelled by stable insertion sort), and keep those
with `count >= mincount`. -/
def dereplication_fulllength (lines : List (List Char)) (minseqlen mincount : Nat) :
    List OtuEntry :=
  (List.insertionSort countGe (counterItems (read_fasta lines minseqlen))).filter
    (fun p => decide (mincount ≤ p.2))

/-- Embeds `get_identity` of `src/agc/agc.py`. Python computes
`matches / len(sequence1) * 100` (`zip` truncates to the shorter string);
the float value is modelled as an exact rational, and the unguarded division's
`ZeroDivisionError` when `len(sequence1) == 0` is modelled as `none`. -/
def get_identity (alignment : List Char × List Char) : Option ℚ :=
  let sequence1 := alignment.1
  let sequence2 := alignment.2
  let matchCount : Nat := (sequence1.zip sequence2).countP (fun p => p.1 == p.2)
  if sequence1.length = 0 then none
  else some (((matchCount : ℚ) / (sequence1.length : ℚ)) * 100)

/-- One candidate-versus-representative check of the clustering loop:
`some true` iff the aligned identity is computed and reaches the 97%
absorption threshold, `none` if `get_identity` raises. -/
def identityCheck (align : Aligner) (sequence otu : List Char) : Option Bool :=
  (get_identity (align sequence otu)).map (fun q => decide (97 ≤ q))

/-- Inner loop of `abundance_greedy_clustering`: scan the existing OTUs in
insertion order; `some false` as soon as one representative yields identity
`>= 97` (the candidate is not an OTU), `some true` when the scan exhausts the
list, `none` if an identity computation raises. -/
def scanOtus (align : Aligner) (sequence : List Char) : List OtuEntry → Option Bool
  | [] => some true
  | (otu, _) :: rest =>
    match get_identity (align sequence otu) with
    | none => none
    | some identity =>
      if 97 ≤ identity then some false else scanOtus align sequence rest

/-- One outer-loop iteration of `abundance_greedy_clustering`: keep the OTU
list unchanged when the candidate matches an existing OTU, append
`[sequence, count]` otherwise. -/
def clusterStep (align : Aligner) (otus : List OtuEntry) (cand : OtuEntry) :
    Option (List OtuEntry) :=
  match scanOtus align cand.1 otus with
  | none => none
  | some true => some (otus ++ [cand])
  | some false => some otus

/-- Outer loop of `abundance_greedy_clustering` over the candidate stream,
starting from the OTU list accumulated so far. -/
def clusterAll (align : Aligner) : List OtuEntry → List OtuEntry → Option (List OtuEntry)
  | otus, [] => some otus
  | otus, cand :: rest =>
    match clusterStep align otus cand with
    | none => none
    | some otus2 => clusterAll align otus2 rest

/-- The greedy clustering of a candidate stream, starting from `otus = []`. -/
def clusterCandidates (align : Aligner) (cands : List OtuEntry) : Option (List OtuEntry) :=
  clusterAll align [] cands

/-- Embeds `abundance_greedy_clustering` of `src/agc/agc.py`: cluster the
`dereplication_fulllength` stream greedily. `chunk_size` and `kmer_size` are
accepted and unused, as in the source. -/
def abundance_greedy_clustering (align : Aligner) (lines : List (List Char))
    (minseqlen mincount chunk_size kmer_size : Nat) : Option (List OtuEntry) :=
  clusterCandidates align (dereplication_fulllength lines minseqlen mincount)

/-- Fuel-indexed chunking; the fuel only bounds the recursion depth and
`chunks80` always supplies enough of it. -/
def chunksAux : Nat → List Char → List (List Char)
  | 0, l => [l]
  | fuel + 1, l =>
    if l.length ≤ 80 then [l] else l.take 80 :: chunksAux fuel (l.drop 80)

/-- `textwrap.fill(sequence, width=80)` for whitespace-free text (the
nucleotide sequences handled here): successive chunks of at most 80
characters; the empty sequence gives one empty line, as `fill("")` does. -/
def chunks80 (l : List Char) : List (List Char) :=
  chunksAux l.length l

/-- One output record of `write_OTU`: the header line
`>OTU_<index> occurrence:<count>` and the wrapped sequence lines. -/
def otuRecord (i : Nat) (entry : OtuEntry) : String × List (List Char) :=
  (">OTU_" ++ toString i ++ " occurrence:" ++ toString entry.2, chunks80 entry.1)

/-- The records `write_OTU` emits for the OTU list starting at index `i`
(`enumerate(OTU_list, 1)` starts at 1). -/
def writeRecords (i : Nat) : List OtuEntry → List (String × List (List Char))
  | [] => []
  | entry :: rest => otuRecord i entry :: writeRecords (i + 1) rest

/-- Embeds `write_OTU` of `src/agc/agc.py`: the sequence of records written
to the output file, one per OTU, 1-indexed in list order. -/
def write_OTU (otus : List OtuEntry) : List (String × List (List Char)) :=
  writeRecords 1 otus

/-- The spec's identity formula, written from the spec's words
(`100 × (number of column positions i where alignedA[i] == alignedB[i]) /
len(alignedA)`), to be compared with `get_identity`. -/
def spec_identity_formula (alignedA alignedB : List Char) : ℚ :=
  100 * (((List.range alignedA.length).countP
    (fun i => alignedA[i]? == alignedB[i]?) : ℚ)) / (alignedA.length : ℚ)

/-- Every sequence in the `readFastaAux` output passes the length filter,
whatever the accumulator: both the header-triggered flushes and the final
end-of-stream flush go through `minseqlen ≤ length`. -/
theorem readFastaAux_mem_length (minseqlen : Nat) :
    ∀ (lines : List (List Char)) (acc s : List Char),
      s ∈ readFastaAux minseqlen lines acc → minseqlen ≤ s.length := by
  intro lines
  induction lines with
  | nil =>
    intro acc s hs
    by_cases hlen : minseqlen ≤ acc.length
    · simp only [readFastaAux, if_pos hlen, List.mem_singleton] at hs
      exact hs ▸ hlen
    · simp only [readFastaAux, if_neg hlen, List.not_mem_nil] at hs
  | cons line rest ih =>
    intro acc s hs
    by_cases hgt : startsWithGt line = true
    · simp only [readFastaAux, if_pos hgt, List.mem_append] at hs
      rcases hs with h1 | h2
      · by_cases hlen : minseqlen ≤ acc.length
        · simp only [if_pos hlen, List.mem_singleton] at h1
          exact h1 ▸ hlen
        · simp only [if_neg hlen, List.not_mem_nil] at h1
      · exact ih [] s h2
    · simp only [readFastaAux, if_neg hgt] at hs
      exact ih _ s hs

/-- C5: for every input stream and every minseqlen, every sequence yielded by
read_fasta has length >= minseqlen; shorter sequences are silently dropped,
and the final accumulated sequence is flushed through the same length filter
as header-triggered flushes. -/
theorem read_fasta_yields_min_length (lines : List (List Char)) (minseqlen : Nat)
    (s : List Char) (hs : s ∈ read_fasta lines minseqlen) : minseqlen ≤ s.length :=
  readFastaAux_mem_length minseqlen lines [] s hs

/-- Witness for C5 at a concrete stream: the two-line input yields `ACGT`. -/
theorem read_fasta_yields_min_length_app : (2 : Nat) ≤ ("ACGT".data).length :=
  read_fasta_yields_min_length [">r1".data, " ACGT ".data] 2 "ACGT".data (by decide)

/-- C6 counterexample: the body line `" ACGT "` (leading and trailing spaces,
no line terminator at all) is yielded as `ACGT`: `line.strip()` removes the
spaces, they are not preserved as the claim states. -/
theorem read_fasta_strip_cex :
    read_fasta [" ACGT ".data] 1 = ["ACGT".data] ∧
      read_fasta [" ACGT ".data] 1 ≠ [" ACGT ".data] := by
  exact ⟨by decide, by decide⟩

/-- C6 amended: a line that does not start the record delimiter is appended to
the accumulating sequence after stripping all leading and trailing whitespace
(spaces and tabs as well as line terminators, Python `str.strip()`); what is
removed on each side is whitespace only. -/
theorem read_fasta_body_line_strips_whitespace (minseqlen : Nat)
    (line : List Char) (rest : List (List Char)) (acc : List Char)
    (hline : startsWithGt line = false) :
    readFastaAux minseqlen (line :: rest) acc =
      readFastaAux minseqlen rest (acc ++ pyStrip line) ∧
    ∃ leadWs trailWs, line = leadWs ++ pyStrip line ++ trailWs ∧
      (∀ c ∈ leadWs, isPySpace c = true) ∧ (∀ c ∈ trailWs, isPySpace c = true) := by
  constructor
  · simp [readFastaAux, hline]
  · refine ⟨line.takeWhile isPySpace,
      ((line.dropWhile isPySpace).reverse.takeWhile isPySpace).reverse, ?_, ?_, ?_⟩
    · have h1 : line.takeWhile isPySpace ++ line.dropWhile isPySpace = line :=
        List.takeWhile_append_dropWhile isPySpace line
      have h2 : (line.dropWhile isPySpace).reverse.takeWhile isPySpace ++
          (line.dropWhile isPySpace).reverse.dropWhile isPySpace =
          (line.dropWhile isPySpace).reverse :=
        List.takeWhile_append_dropWhile isPySpace (line.dropWhile isPySpace).reverse
      have h3 := congrArg List.reverse h2
      rw [List.reverse_append, List.reverse_reverse] at h3
      calc line = line.takeWhile isPySpace ++ line.dropWhile isPySpace := h1.symm
        _ = line.takeWhile isPySpace ++
              (((line.dropWhile isPySpace).reverse.dropWhile isPySpace).reverse ++
                ((line.dropWhile isPySpace).reverse.takeWhile isPySpace).reverse) := by
            rw [h3]
        _ = line.takeWhile isPySpace ++ pyStrip line ++
              ((line.dropWhile isPySpace).reverse.takeWhile isPySpace).reverse := by
            rw [List.append_assoc]; rfl
    · intro c hc
      exact List.mem_takeWhile_imp hc
    · intro c hc
      rw [List.mem_reverse] at hc
      exact List.mem_takeWhile_imp hc

/-- Witness for the amended C6 at the concrete body line `" ACGT "`. -/
theorem read_fasta_body_line_strips_whitespace_app :
    readFastaAux 1 [" ACGT ".data] [] = readFastaAux 1 [] ([] ++ pyStrip " ACGT ".data) ∧
    ∃ leadWs trailWs, " ACGT ".data = leadWs ++ pyStrip " ACGT ".data ++ trailWs ∧
      (∀ c ∈ leadWs, isPySpace c = true) ∧ (∀ c ∈ trailWs, isPySpace c = true) :=
  read_fasta_body_line_strips_whitespace 1 " ACGT ".data [] [] (by decide)

/-- The key list of the counting structure has no duplicates: each distinct
sequence appears once, at its first occurrence. -/
theorem dedupKeys_nodup (seqs : List (List Char)) : (dedupKeys seqs).Nodup := by
  have h : ∀ (l : List (List Char)) (acc : List (List Char)), acc.Nodup →
      (l.foldl (fun acc s => if s ∈ acc then acc else acc ++ [s]) acc).Nodup := by
    intro l
    induction l with
    | nil => intro acc hacc; simpa using hacc
    | cons s rest ih =>
      intro acc hacc
      simp only [List.foldl_cons]
      by_cases hs : s ∈ acc
      · rw [if_pos hs]; exact ih acc hacc
      · rw [if_neg hs]
        refine ih _ ?_
        simp [List.nodup_append, hacc, hs]
  exact h seqs [] List.nodup_nil

/-- C3: every Candidate yielded by dereplication_fulllength has
count >= mincount, the counts are non-increasing along the stream, and the
sequences are pairwise distinct. -/
theorem dereplication_fulllength_props (lines : List (List Char)) (minseqlen mincount : Nat) :
    (∀ p ∈ dereplication_fulllength lines minseqlen mincount, mincount ≤ p.2) ∧
    (dereplication_fulllength lines minseqlen mincount).Pairwise
      (fun a b => b.2 ≤ a.2) ∧
    (dereplication_fulllength lines minseqlen mincount).Pairwise
      (fun a b => a.1 ≠ b.1) := by
  refine ⟨?_, ?_, ?_⟩
  · intro p hp
    have hmem := List.of_mem_filter hp
    simpa using hmem
  · have hs : (List.insertionSort countGe
        (counterItems (read_fasta lines minseqlen))).Pairwise countGe :=
      List.sorted_insertionSort countGe _
    exact List.Pairwise.filter _ hs
  · have hkeys : (dedupKeys (read_fasta lines minseqlen)).Nodup := dedupKeys_nodup _
    have hpair : (counterItems (read_fasta lines minseqlen)).Pairwise
        (fun a b => a.1 ≠ b.1) := by
      rw [counterItems, List.pairwise_map]
      exact hkeys
    have hperm : List.Perm
        (List.insertionSort countGe (counterItems (read_fasta lines minseqlen)))
        (counterItems (read_fasta lines minseqlen)) :=
      List.perm_insertionSort countGe _
    have hsorted := (hperm.pairwise_iff (fun h => Ne.symm h)).mpr hpair
    exact List.Pairwise.filter _ hsorted

/-- Witness for C3: the concrete stream AA, AA, AC at mincount 1 keeps
(AA, 2), whose count is at least the threshold. -/
theorem dereplication_fulllength_props_app : (1 : Nat) ≤ 2 :=
  (dereplication_fulllength_props
    [">r1".data, "AA".data, ">r2".data, "AA".data, ">r3".data, "AC".data] 1 1).1
    ("AA".data, 2) (by decide)

/-- `identityCheck` returns `some false` exactly when the identity is
computed and falls strictly below the 97% absorption threshold. -/
theorem identityCheck_false_iff (align : Aligner) (s o : List Char) :
    identityCheck align s o = some false ↔
      ∃ q, get_identity (align s o) = some q ∧ q < 97 := by
  unfold identityCheck
  cases h : get_identity (align s o) with
  | none => simp
  | some q => simp [not_le]

/-- `identityCheck` returns `some true` exactly when the identity is computed
and reaches the 97% absorption threshold. -/
theorem identityCheck_true_iff (align : Aligner) (s o : List Char) :
    identityCheck align s o = some true ↔
      ∃ q, get_identity (align s o) = some q ∧ 97 ≤ q := by
  unfold identityCheck
  cases h : get_identity (align s o) with
  | none => simp
  | some q => simp

/-- The scan says "new OTU" exactly when every existing representative is
checked and found strictly below the threshold. -/
theorem scanOtus_eq_true_iff (align : Aligner) (s : List Char) :
    ∀ otus, scanOtus align s otus = some true ↔
      ∀ p ∈ otus, identityCheck align s p.1 = some false := by
  intro otus
  induction otus with
  | nil => simp [scanOtus]
  | cons p rest ih =>
    obtain ⟨o, c⟩ := p
    cases h : get_identity (align s o) with
    | none => simp [scanOtus, List.forall_mem_cons, identityCheck, h]
    | some q =>
      by_cases hq : 97 ≤ q
      · simp [scanOtus, h, if_pos hq, List.forall_mem_cons, identityCheck, hq]
      · have hred : scanOtus align s ((o, c) :: rest) = scanOtus align s rest := by
          simp [scanOtus, h, if_neg hq]
        rw [hred, List.forall_mem_cons]
        constructor
        · intro hscan
          refine ⟨(identityCheck_false_iff align s o).2 ⟨q, h, lt_of_not_ge hq⟩, ?_⟩
          exact ih.1 hscan
        · intro hboth
          exact ih.2 hboth.2

/-- Scanning stops at the first representative that reaches the threshold:
whatever follows it in the OTU list, the scan returns `some false`. -/
theorem scanOtus_first_match (align : Aligner) (s : List Char) :
    ∀ (pre : List OtuEntry) (otu : OtuEntry) (post : List OtuEntry),
      (∀ p ∈ pre, identityCheck align s p.1 = some false) →
      identityCheck align s otu.1 = some true →
      scanOtus align s (pre ++ otu :: post) = some false := by
  intro pre
  induction pre with
  | nil =>
    intro otu post _ hm
    obtain ⟨o, c⟩ := otu
    rcases (identityCheck_true_iff align s o).1 hm with ⟨q, hq, h97⟩
    simp only [List.nil_append, scanOtus, hq]
    rw [if_pos h97]
  | cons p rest ih =>
    intro otu post hpre hm
    obtain ⟨o, c⟩ := p
    have hfalse := hpre (o, c) (List.mem_cons_self _ _)
    rcases (identityCheck_false_iff align s o).1 hfalse with ⟨q, hq, hlt⟩
    simp only [List.cons_append, scanOtus, hq]
    rw [if_neg (not_le.2 hlt)]
    exact ih otu post (fun p hp => hpre p (List.mem_cons_of_mem _ hp)) hm

/-- C1: when the OTUs before `otu` all score below 97% and `otu` scores at or
above it, the Candidate is discarded at `otu` — the scan answers `some false`
no matter what follows `otu` (no later OTU is examined), and the clustering
step leaves the OTU list unchanged: the count is not merged anywhere. -/
theorem scan_first_match_discards (align : Aligner) (pre post : List OtuEntry)
    (otu : OtuEntry) (sequence : List Char) (count : Nat)
    (hpre : ∀ p ∈ pre, identityCheck align sequence p.1 = some false)
    (hmatch : identityCheck align sequence otu.1 = some true) :
    scanOtus align sequence (pre ++ otu :: post) = some false ∧
    clusterStep align (pre ++ otu :: post) (sequence, count) =
      some (pre ++ otu :: post) := by
  have hscan := scanOtus_first_match align sequence pre otu post hpre hmatch
  exact ⟨hscan, by simp [clusterStep, hscan]⟩

/-- Witness for C1: AAAA is checked against TTTT (0%), matches AAAA (100%),
and GGGG after it is irrelevant; the OTU list comes back unchanged. -/
theorem scan_first_match_discards_app :
    scanOtus (fun a b => (a, b)) "AAAA".data
      ([("TTTT".data, 5)] ++ ("AAAA".data, 7) :: [("GGGG".data, 1)]) = some false ∧
    clusterStep (fun a b => (a, b))
      ([("TTTT".data, 5)] ++ ("AAAA".data, 7) :: [("GGGG".data, 1)])
      ("AAAA".data, 3) =
      some ([("TTTT".data, 5)] ++ ("AAAA".data, 7) :: [("GGGG".data, 1)]) :=
  scan_first_match_discards (fun a b => (a, b)) [("TTTT".data, 5)]
    [("GGGG".data, 1)] ("AAAA".data, 7) "AAAA".data 3
    (by
      intro p hp
      simp only [List.mem_singleton] at hp
      subst hp
      simp [identityCheck, get_identity] <;> norm_num)
    (by simp [identityCheck, get_identity] <;> norm_num)

/-- C4: the OTU list only grows by appending — each step returns the list
unchanged or with the Candidate appended at the end; the accumulated list is
always a prefix of the final one; and the head of a non-empty result is the
first Candidate of the stream (always accepted, since the list starts
empty). -/
theorem clustering_append_only (align : Aligner) :
    (∀ otus cand res, clusterStep align otus cand = some res →
      res = otus ∨ res = otus ++ [cand]) ∧
    (∀ cands acc res, clusterAll align acc cands = some res →
      ∃ t, res = acc ++ t) ∧
    (∀ cands res, clusterCandidates align cands = some res → cands ≠ [] →
      res.head? = cands.head?) := by
  have hstep : ∀ otus cand res, clusterStep align otus cand = some res →
      res = otus ∨ res = otus ++ [cand] := by
    intro otus cand res h
    unfold clusterStep at h
    cases hscan : scanOtus align cand.1 otus with
    | none => rw [hscan] at h; exact absurd h (by simp)
    | some b =>
      rw [hscan] at h
      cases b with
      | true => simp at h; exact Or.inr h.symm
      | false => simp at h; exact Or.inl h.symm
  have hall : ∀ cands acc res, clusterAll align acc cands = some res →
      ∃ t, res = acc ++ t := by
    intro cands
    induction cands with
    | nil =>
      intro acc res h
      simp [clusterAll] at h
      exact ⟨[], by simp [h.symm]⟩
    | cons c cs ih =>
      intro acc res h
      simp only [clusterAll] at h
      cases hstep2 : clusterStep align acc c with
      | none => rw [hstep2] at h; simp at h
      | some acc2 =>
        rw [hstep2] at h
        simp at h
        rcases ih acc2 res h with ⟨t, ht⟩
        rcases hstep acc c acc2 hstep2 with h1 | h2
        · exact ⟨t, by rw [ht, h1]⟩
        · exact ⟨[c] ++ t, by rw [ht, h2, List.append_assoc]⟩
  refine ⟨hstep, hall, ?_⟩
  intro cands res h hne
  cases cands with
  | nil => exact absurd rfl hne
  | cons c cs =>
    unfold clusterCandidates at h
    simp only [clusterAll] at h
    have hstep0 : clusterStep align [] c = some [c] := rfl
    rw [hstep0] at h
    simp at h
    rcases hall cs [c] res h with ⟨t, ht⟩
    rw [ht]
    simp

/-- Witness for C4 on the single-candidate stream AAAA. -/
theorem clustering_append_only_app :
    ([("AAAA".data, 5)] = ([] : List OtuEntry) ∨
      [("AAAA".data, 5)] = ([] : List OtuEntry) ++ [("AAAA".data, 5)]) ∧
    (∃ t, [("AAAA".data, 5)] = ([] : List OtuEntry) ++ t) ∧
    ([("AAAA".data, 5)] : List OtuEntry).head? =
      ([("AAAA".data, 5)] : List OtuEntry).head? :=
  ⟨(clustering_append_only (fun a b => (a, b))).1 [] ("AAAA".data, 5)
      [("AAAA".data, 5)] rfl,
    (clustering_append_only (fun a b => (a, b))).2.1 [("AAAA".data, 5)] []
      [("AAAA".data, 5)] rfl,
    (clustering_append_only (fun a b => (a, b))).2.2 [("AAAA".data, 5)]
      [("AAAA".data, 5)] rfl (by simp)⟩

/-- Invariant of the clustering loop: every accepted representative scored
strictly below the 97% threshold against every representative accepted before
it (in the candidate-versus-representative direction of the source). -/
theorem clusterAll_pairwise (align : Aligner) :
    ∀ (cands acc res : List OtuEntry),
      acc.Pairwise (fun a b => identityCheck align b.1 a.1 = some false) →
      clusterAll align acc cands = some res →
      res.Pairwise (fun a b => identityCheck align b.1 a.1 = some false) := by
  intro cands
  induction cands with
  | nil =>
    intro acc res hacc h
    simp [clusterAll] at h
    exact h ▸ hacc
  | cons c cs ih =>
    intro acc res hacc h
    simp only [clusterAll] at h
    cases hstep : clusterStep align acc c with
    | none => rw [hstep] at h; simp at h
    | some acc2 =>
      rw [hstep] at h
      simp at h
      refine ih acc2 res ?_ h
      unfold clusterStep at hstep
      cases hs : scanOtus align c.1 acc with
      | none => rw [hs] at hstep; simp at hstep
      | some b =>
        rw [hs] at hstep
        cases b with
        | false =>
          simp at hstep
          exact hstep ▸ hacc
        | true =>
          simp at hstep
          have hall := (scanOtus_eq_true_iff align c.1 acc).1 hs
          rw [← hstep]
          refine List.pairwise_append.2 ⟨hacc, List.pairwise_singleton _ _, ?_⟩
          intro a ha b hb
          simp at hb
          subst hb
          exact hall a ha

/-- C9: in the result of the greedy clustering, every representative at
position j scores strictly below 97% identity against every representative at
an earlier position i (aligned candidate-versus-representative, the direction
the run used). -/
theorem clustering_result_pairwise_below_threshold (align : Aligner)
    (cands res : List OtuEntry) (h : clusterCandidates align cands = some res)
    (i j : Nat) (hij : i < j) (hj : j < res.length) :
    ∃ q, get_identity (align (res.get ⟨j, hj⟩).1
        (res.get ⟨i, Nat.lt_trans hij hj⟩).1) = some q ∧ q < 97 := by
  have hpw := clusterAll_pairwise align cands [] res List.Pairwise.nil h
  have hr := List.pairwise_iff_get.1 hpw ⟨i, Nat.lt_trans hij hj⟩ ⟨j, hj⟩ hij
  exact (identityCheck_false_iff align _ _).1 hr

/-- Witness for C9: clustering AAAA then TTTT keeps both; the second against
the first has identity 0 < 97. -/
theorem clustering_result_pairwise_below_threshold_app :
    ∃ q, get_identity ("TTTT".data, "AAAA".data) = some q ∧ q < 97 :=
  clustering_result_pairwise_below_threshold (fun a b => (a, b))
    [("AAAA".data, 5), ("TTTT".data, 3)] [("AAAA".data, 5), ("TTTT".data, 3)]
    (by simp [clusterCandidates, clusterAll, clusterStep, scanOtus, get_identity] <;>
      norm_num)
    0 1 (by decide) (by decide)

/-- A candidate stream that is already pairwise below the threshold is
re-accepted wholesale: the scan of the current list always says "new OTU". -/
theorem clusterAll_of_pairwise (align : Aligner) :
    ∀ (l acc : List OtuEntry),
      (acc ++ l).Pairwise (fun a b => identityCheck align b.1 a.1 = some false) →
      clusterAll align acc l = some (acc ++ l) := by
  intro l
  induction l with
  | nil => intro acc h; simp [clusterAll]
  | cons c cs ih =>
    intro acc h
    have hsplit := List.pairwise_append.1 (by simpa using h :
      (acc ++ (c :: cs)).Pairwise (fun a b => identityCheck align b.1 a.1 = some false))
    have hscan : scanOtus align c.1 acc = some true := by
      refine (scanOtus_eq_true_iff align c.1 acc).2 ?_
      intro p hp
      exact hsplit.2.2 p hp c (List.mem_cons_self c cs)
    have hstep : clusterStep align acc c = some (acc ++ [c]) := by
      simp [clusterStep, hscan]
    simp only [clusterAll, hstep]
    have hres := ih (acc ++ [c]) (by simpa using h)
    rw [hres]
    simp

/-- C8: the clustering is idempotent on OTU founders — re-clustering the
stream of founded OTUs (with the same aligner behaviour) reproduces the OTU
list unchanged, so running the clustering twice gives the same OTU list. -/
theorem abundance_greedy_clustering_idempotent (align : Aligner)
    (cands res : List OtuEntry) (h : clusterCandidates align cands = some res) :
    clusterCandidates align res = some res := by
  have hpw := clusterAll_pairwise align cands [] res List.Pairwise.nil h
  have hre := clusterAll_of_pairwise align res [] (by simpa using hpw)
  simpa [clusterCandidates] using hre

/-- Witness for C8: re-clustering the one-OTU result reproduces it. -/
theorem abundance_greedy_clustering_idempotent_app :
    clusterCandidates (fun a b => (a, b)) [("AAAA".data, 5)] =
      some [("AAAA".data, 5)] :=
  abundance_greedy_clustering_idempotent (fun a b => (a, b))
    [("AAAA".data, 5)] [("AAAA".data, 5)] rfl

/-- For equal-length strings the zip-based match count of the source equals
the spec's count over all column positions: the truncation `zip` would apply
never drops a column. -/
theorem countP_zip_eq_countP_range :
    ∀ (s1 s2 : List Char), s1.length = s2.length →
      (s1.zip s2).countP (fun p => p.1 == p.2) =
        (List.range s1.length).countP (fun i => s1[i]? == s2[i]?) := by
  intro s1
  induction s1 with
  | nil => intro s2 h; simp
  | cons a t1 ih =>
    intro s2 h
    cases s2 with
    | nil => simp at h
    | cons b t2 =>
      simp only [List.length_cons] at h
      have hlen : t1.length = t2.length := Nat.succ_injective h
      simp only [List.zip_cons_cons, List.countP_cons, List.length_cons,
        List.range_succ_eq_map, List.countP_map]
      rw [ih t2 hlen]
      have hfun : (List.range t1.length).countP
          ((fun i => (a :: t1)[i]? == (b :: t2)[i]?) ∘ Nat.succ) =
          (List.range t1.length).countP (fun i => t1[i]? == t2[i]?) := by
        apply List.countP_congr
        intro i _
        simp [Function.comp]
      rw [hfun]
      simp

/-- C2 counterexample: at the equal-length pair of empty aligned strings the
function does not return the claimed percentage — the unguarded division
raises (modelled: `none`), so no value at all is returned. -/
theorem get_identity_empty_alignment_cex :
    get_identity (([] : List Char), ([] : List Char)) = none ∧
      get_identity (([] : List Char), ([] : List Char)) ≠
        some (spec_identity_formula [] []) :=
  ⟨rfl, by simp [get_identity]⟩

/-- C2 amended: for every pair of equal-length aligned strings of length at
least 1, get_identity returns exactly 100 x (number of column positions where
the strings agree) / len(alignedA); gap columns are ordinary columns — in the
denominator, and matching only by literal character equality. -/
theorem get_identity_matches_spec_formula (alignedA alignedB : List Char)
    (hlen : alignedA.length = alignedB.length) (hpos : 0 < alignedA.length) :
    get_identity (alignedA, alignedB) =
      some (spec_identity_formula alignedA alignedB) := by
  simp only [get_identity, spec_identity_formula]
  rw [if_neg (by omega)]
  rw [countP_zip_eq_countP_range alignedA alignedB hlen]
  simp only [Option.some.injEq]
  ring

/-- Witness for the amended C2: A-C versus A-G agree on one of two columns,
giving exactly 100 x 1 / 2. -/
theorem get_identity_matches_spec_formula_app :
    get_identity ("AC".data, "AG".data) =
      some (spec_identity_formula "AC".data "AG".data) :=
  get_identity_matches_spec_formula "AC".data "AG".data (by decide) (by decide)

/-- A gapless self-alignment matches on every column. -/
theorem countP_zip_self (s : List Char) :
    (s.zip s).countP (fun p => p.1 == p.2) = s.length := by
  induction s with
  | nil => simp
  | cons a t ih => simp [List.zip_cons_cons, List.countP_cons, ih]

/-- C10: get_identity divides by the length of the first aligned string
unguarded — the empty alignment raises ZeroDivisionError (modelled `none`)
instead of returning a percentage; with length at least 1 it always returns a
value, and every non-empty gapless self-alignment scores exactly 100, while
the empty one does not. -/
theorem get_identity_zero_division :
    (∀ alignedB : List Char, get_identity (([] : List Char), alignedB) = none) ∧
    (∀ alignedA alignedB : List Char, 0 < alignedA.length →
      ∃ q, get_identity (alignedA, alignedB) = some q) ∧
    (∀ s : List Char, s ≠ [] → get_identity (s, s) = some 100) ∧
    get_identity (([] : List Char), ([] : List Char)) = none := by
  refine ⟨fun _ => rfl, ?_, ?_, rfl⟩
  · intro a b ha
    refine ⟨(((a.zip b).countP (fun p => p.1 == p.2) : ℚ) / (a.length : ℚ)) * 100, ?_⟩
    simp only [get_identity]
    rw [if_neg (by omega)]
  · intro s hs
    have hne : s.length ≠ 0 := fun h => hs (List.length_eq_zero.1 h)
    simp only [get_identity]
    rw [if_neg hne, countP_zip_self]
    have hcast : (s.length : ℚ) ≠ 0 := Nat.cast_ne_zero.2 hne
    rw [div_self hcast, one_mul]

/-- Witness for C10: the gapless self-alignment of ACGT scores 100. -/
theorem get_identity_zero_division_app :
    get_identity ("ACGT".data, "ACGT".data) = some 100 :=
  get_identity_zero_division.2.2.1 "ACGT".data (by decide)

/-- Concatenating the chunks restores the sequence, whatever the fuel. -/
theorem chunksAux_join : ∀ (fuel : Nat) (l : List Char),
    (chunksAux fuel l).join = l := by
  intro fuel
  induction fuel with
  | zero => intro l; simp [chunksAux]
  | succ f ih =>
    intro l
    by_cases h : l.length ≤ 80
    · simp [chunksAux, h]
    · simp [chunksAux, h, ih]

/-- With enough fuel every chunk has at most 80 characters. -/
theorem chunksAux_length_le : ∀ (fuel : Nat) (l : List Char),
    l.length ≤ 80 + 80 * fuel → ∀ c ∈ chunksAux fuel l, c.length ≤ 80 := by
  intro fuel
  induction fuel with
  | zero =>
    intro l hl c hc
    simp [chunksAux] at hc
    subst hc
    simpa using hl
  | succ f ih =>
    intro l hl c hc
    by_cases h : l.length ≤ 80
    · simp [chunksAux, h] at hc
      subst hc
      exact h
    · simp only [chunksAux, if_neg h, List.mem_cons] at hc
      rcases hc with hc | hc
      · subst hc
        simpa using List.length_take_le 80 l
      · refine ih (l.drop 80) ?_ c hc
        simp only [List.length_drop]
        omega

/-- The wrapped lines of a sequence: none longer than 80, and together they
spell the sequence back. -/
theorem chunks80_lines (l : List Char) :
    (∀ c ∈ chunks80 l, c.length ≤ 80) ∧ (chunks80 l).join = l :=
  ⟨chunksAux_length_le l.length l (by omega), chunksAux_join l.length l⟩

/-- One record per OTU entry, whatever the starting index. -/
theorem writeRecords_length : ∀ (l : List OtuEntry) (i : Nat),
    (writeRecords i l).length = l.length := by
  intro l
  induction l with
  | nil => intro i; rfl
  | cons e rest ih => intro i; simp [writeRecords, ih]

/-- The k-th record written starting at index i is the record of the k-th
entry, numbered i + k. -/
theorem writeRecords_getElem? : ∀ (l : List OtuEntry) (i k : Nat),
    (writeRecords i l)[k]? = (l[k]?).map (fun e => otuRecord (i + k) e) := by
  intro l
  induction l with
  | nil => intro i k; simp [writeRecords]
  | cons e rest ih =>
    intro i k
    cases k with
    | zero => simp [writeRecords]
    | succ k2 =>
      simp only [writeRecords, List.getElem?_cons_succ, ih (i + 1) k2]
      rw [show i + 1 + k2 = i + (k2 + 1) from by omega]

/-- C7: write_OTU emits exactly one record per OTU; the k-th record (0-based)
carries header index k+1 — contiguous from 1 in list order — and the
representative's count, with the sequence wrapped at 80 characters per line;
the empty OTU list gives an output with zero records. -/
theorem write_OTU_records (otus : List OtuEntry) :
    (write_OTU otus).length = otus.length ∧
    write_OTU ([] : List OtuEntry) = [] ∧
    ∀ k s c, otus[k]? = some (s, c) →
      (write_OTU otus)[k]? =
        some (">OTU_" ++ toString (k + 1) ++ " occurrence:" ++ toString c,
          chunks80 s) ∧
      (∀ line ∈ chunks80 s, line.length ≤ 80) ∧
      (chunks80 s).join = s := by
  refine ⟨writeRecords_length otus 1, rfl, ?_⟩
  intro k s c hk
  refine ⟨?_, (chunks80_lines s).1, (chunks80_lines s).2⟩
  rw [write_OTU, writeRecords_getElem?, hk, Option.map_some']
  rw [show 1 + k = k + 1 from Nat.add_comm 1 k]
  rfl

/-- Witness for C7 at the one-OTU list (AC, 12). -/
theorem write_OTU_records_app :
    (write_OTU [("AC".data, 12)])[0]? =
      some (">OTU_" ++ toString (0 + 1) ++ " occurrence:" ++ toString 12,
        chunks80 "AC".data) ∧
    (∀ line ∈ chunks80 "AC".data, line.length ≤ 80) ∧
    (chunks80 "AC".data).join = "AC".data :=
  (write_OTU_records [("AC".data, 12)]).2.2 0 "AC".data 12 rfl
